import Mathlib

/-!
Verification of `depth_increasing_pooling.py` (YOLOv2 extensions).

The source operates on numpy-style tensors: a tensor is a shape (list of
dimension sizes) together with a flat buffer of elements in row-major
(last-axis-fastest) order.  We embed tensors as `NpTensor`:
`shape : List Nat` and `data : List α`.

External numpy primitives used by the source are modelled by their
documented semantics:
  * `np.transpose(a, perm)` followed by `np.ascontiguousarray` produces a
    fresh row-major buffer whose axis `k` is input axis `perm[k]`
    (`npTranspose`);
  * `np.swapaxes(a, i, j)` is the transpose by the permutation exchanging
    `i` and `j` (`npSwapaxes`);
  * assigning `a.shape = s` (or `reshape`) keeps the buffer and succeeds
    exactly when the element counts match, raising otherwise (`reshapeNp`).

The repository functions `dip_np`, `transposeAlotNp`, `dip_swap_np` and
`depth_increasing_pooling` are translated below.  Python's `int(a/b)` on
positive integers is floor division, i.e. `Nat` division.
-/

namespace CNTKDip


/-- A numpy-style tensor: a shape and a flat row-major data buffer. -/
structure NpTensor (α : Type) where
  shape : List Nat
  data : List α
deriving Repr, DecidableEq

/-- A tensor is well formed when its buffer length is the product of its
dimension sizes. -/
def NpTensor.WF {α : Type} (t : NpTensor α) : Prop :=
  t.data.length = t.shape.prod

/-- Row-major linear index of a multi-index: the last axis varies fastest. -/
def linIdx : List Nat → List Nat → Nat
  | _ :: ds, i :: is => i * ds.prod + linIdx ds is
  | _, _ => 0

/-- Inverse of `linIdx`: recover the multi-index of a linear position. -/
def unlin : List Nat → Nat → List Nat
  | [], _ => []
  | _ :: ds, m => m / ds.prod :: unlin ds (m % ds.prod)

/-- A multi-index is valid for a shape when it has the same length and is
componentwise below the dimension sizes. -/
def validIdx : List Nat → List Nat → Bool
  | [], [] => true
  | d :: ds, i :: is => decide (i < d) && validIdx ds is
  | _, _ => false

/-- Element of a tensor at a multi-index (default element out of range). -/
def NpTensor.el {α : Type} [Inhabited α] (t : NpTensor α) (idx : List Nat) : α :=
  t.data.getD (linIdx t.shape idx) default

/-! Permutations of axis positions, as lists of `Nat` the way the source
handles them (tuples such as `(0, 2, 4, 1, 3)`). -/

/-- Result of indexing a list by a permutation list: entry `k` of the
result is entry `perm[k]` of `l`.  Applied to a shape this is the shape of
`np.transpose(t, perm)`. -/
def applyPerm (perm l : List Nat) : List Nat :=
  perm.map (fun p => l.getD p 0)

/-- Source multi-index of the element stored at `idx` in
`np.transpose(t, perm)`: position `p` of the source index is the entry of
`idx` at the position where `perm` holds `p`. -/
def invApply (perm idx : List Nat) : List Nat :=
  (List.range perm.length).map (fun p => idx.getD (List.indexOf p perm) 0)

/-- A list of length `n` that is a rearrangement of `0, …, n-1`. -/
def ValidPerm (p : List Nat) : Prop :=
  p.Perm (List.range p.length)

/-! The model of `np.transpose` followed by `np.ascontiguousarray`: the
result has shape `applyPerm perm shape` and its row-major buffer lists, for
each linear position, the source element whose multi-index is obtained by
`invApply perm`. -/

/-- Model of `np.ascontiguousarray(np.transpose(t, perm))`. -/
def npTranspose {α : Type} [Inhabited α] (t : NpTensor α) (perm : List Nat) :
    NpTensor α :=
  ⟨applyPerm perm t.shape,
    (List.range (applyPerm perm t.shape).prod).map
      (fun m => t.el (invApply perm (unlin (applyPerm perm t.shape) m)))⟩

/-! Pairwise axis swaps.  `np.swapaxes(a, i, j)` is the transpose by the
identity permutation with positions `i` and `j` exchanged. -/

/-- The function exchanging `i` and `j` and fixing everything else. -/
def swapFun (i j k : Nat) : Nat :=
  if k = i then j else if k = j then i else k

/-- The permutation list exchanging axes `i` and `j` of an `n`-axis
tensor. -/
def swapPerm (n i j : Nat) : List Nat :=
  (List.range n).map (swapFun i j)

/-- Model of `np.ascontiguousarray(np.swapaxes(t, i, j))`. -/
def npSwapaxes {α : Type} [Inhabited α] (t : NpTensor α) (i j : Nat) :
    NpTensor α :=
  npTranspose t (swapPerm t.shape.length i j)

/-- In-place exchange of entries `i` and `j` of a list, as the three
assignments of the source perform it. -/
def swapList (l : List Nat) (i j : Nat) : List Nat :=
  (l.set i (l.getD j 0)).set j (l.getD i 0)

/-! Translation of the source functions. -/

/-- The inner search of `transposeAlotNp`:
`for j in range(i, nr_of_axes): if current_permutation[j] == permutation[i]: break`.
If no position matches, the Python loop leaves `j` at `nr_of_axes - 1`. -/
def findFrom (cur : List Nat) (i n target : Nat) : Nat :=
  match (List.range' i (n - i)).find? (fun j => cur.getD j 0 == target) with
  | some j => j
  | none => n - 1

/-- One iteration of the outer loop of `transposeAlotNp`: state is
`((model, current_permutation), number_of_swaps_done)`; the swap counter is
ghost instrumentation recording how many `np.swapaxes` calls ran. -/
def dipStep {α : Type} [Inhabited α] (perm : List Nat)
    (st : (NpTensor α × List Nat) × Nat) (i : Nat) :
    (NpTensor α × List Nat) × Nat :=
  if perm.getD i 0 ≠ st.1.2.getD i 0 then
    ((npSwapaxes st.1.1 i (findFrom st.1.2 i perm.length (perm.getD i 0)),
      swapList st.1.2 i (findFrom st.1.2 i perm.length (perm.getD i 0))),
     st.2 + 1)
  else st

/-- Initial loop state of `transposeAlotNp`:
`current_permutation = np.arange(nr_of_axes)` and no swap done yet. -/
def dipInit {α : Type} (t : NpTensor α) (perm : List Nat) :
    (NpTensor α × List Nat) × Nat :=
  ((t, List.range perm.length), 0)

/-- The full loop `for i in range(nr_of_axes - 1): ...` of
`transposeAlotNp`. -/
def dipLoop {α : Type} [Inhabited α] (t : NpTensor α) (perm : List Nat) :
    (NpTensor α × List Nat) × Nat :=
  (List.range (perm.length - 1)).foldl (dipStep perm) (dipInit t perm)

/-- Translation of `transposeAlotNp(model, permutation)` (source lines
141-161): general transpose implemented by repeated pairwise
`np.swapaxes`, with a bookkeeping list `current_permutation` recording
where each original axis currently sits.  The spec also describes this
selection-swap algorithm as the body of the missing
`extensions.Transpose.transpose_a_lot` helper (AxisPermuter, spec 4.1). -/
def transposeAlotNp {α : Type} [Inhabited α] (model : NpTensor α)
    (permutation : List Nat) : NpTensor α :=
  (dipLoop model permutation).1.1

/-- Model of assigning `volume.shape = s` (equivalently `np.reshape`): the
buffer is kept and the operation succeeds exactly when the element counts
agree, and raises a ValueError otherwise. -/
def reshapeNp {α : Type} (t : NpTensor α) (s : List Nat) :
    Option (NpTensor α) :=
  if s.prod = t.shape.prod then some ⟨s, t.data⟩ else none

/-- Translation of the numpy reference `dip_np(volume, pooling_window_shape)`
(source lines 50-63).  `int(a/b)` on positive integers is `Nat` division.
Out-of-range accesses `volume.shape[k]` are totalised with `getD`; every
claim concerns 3-axis inputs, where the translation is exact. -/
def dip_np {α : Type} [Inhabited α] (volume : NpTensor α)
    (pooling_window_shape : Nat × Nat) : Option (NpTensor α) :=
  let shape_tmp := [volume.shape.getD 0 0,
                    volume.shape.getD 1 0 / pooling_window_shape.1,
                    pooling_window_shape.1,
                    volume.shape.getD 2 0 / pooling_window_shape.2,
                    pooling_window_shape.2]
  let final_shape := [volume.shape.getD 0 0 * pooling_window_shape.1 * pooling_window_shape.2,
                      volume.shape.getD 1 0 / pooling_window_shape.1,
                      volume.shape.getD 2 0 / pooling_window_shape.2]
  match reshapeNp volume shape_tmp with
  | none => none
  | some v => reshapeNp (npTranspose v [0, 2, 4, 1, 3]) final_shape

/-- Translation of `dip_swap_np(volume, pooling_window_shape)` (source
lines 164-177): same pipeline as `dip_np` but with the transpose done by
the selection-swap `transposeAlotNp`. -/
def dip_swap_np {α : Type} [Inhabited α] (volume : NpTensor α)
    (pooling_window_shape : Nat × Nat) : Option (NpTensor α) :=
  let shape_tmp := [volume.shape.getD 0 0,
                    volume.shape.getD 1 0 / pooling_window_shape.1,
                    pooling_window_shape.1,
                    volume.shape.getD 2 0 / pooling_window_shape.2,
                    pooling_window_shape.2]
  let final_shape := [volume.shape.getD 0 0 * pooling_window_shape.1 * pooling_window_shape.2,
                      volume.shape.getD 1 0 / pooling_window_shape.1,
                      volume.shape.getD 2 0 / pooling_window_shape.2]
  match reshapeNp volume shape_tmp with
  | none => none
  | some v => reshapeNp (transposeAlotNp v [0, 2, 4, 1, 3]) final_shape

/-- Failure modes of `depth_increasing_pooling`: the explicit
`assert len(input_shape) == 3` (ShapeError of the spec), and the error the
framework reshape raises on an element-count mismatch. -/
inductive DipError where
  | shapeError
  | sizeMismatch
deriving Repr, DecidableEq

/-- Translation of `depth_increasing_pooling(tensor, pooling_window_shape,
input_shape=None)` (source lines 10-41).  The CNTK primitives `reshape`
and the repository helper `transpose_a_lot` are not part of this fragment;
`reshape` is modelled like the numpy reshape (`reshapeNp`), and
`transpose_a_lot` is modelled from the spec: spec section 4.1 specifies the
AxisPermuter as exactly the selection-swap algorithm of `transposeAlotNp`.
In the source `final_shape` uses true division `/`; on every path that
reaches it the window sizes divide exactly (otherwise the first reshape has
already failed), so `Nat` division is faithful there. -/
def depth_increasing_pooling {α : Type} [Inhabited α] (tensor : NpTensor α)
    (pooling_window_shape : Nat × Nat)
    (input_shape : Option (List Nat) := none) :
    Except DipError (NpTensor α) :=
  let ish := input_shape.getD tensor.shape
  if ish.length = 3 then
    let shape_tmp := [ish.getD 0 0,
                      ish.getD 1 0 / pooling_window_shape.1,
                      pooling_window_shape.1,
                      ish.getD 2 0 / pooling_window_shape.2,
                      pooling_window_shape.2]
    let final_shape := [ish.getD 0 0 * pooling_window_shape.1 * pooling_window_shape.2,
                        ish.getD 1 0 / pooling_window_shape.1,
                        ish.getD 2 0 / pooling_window_shape.2]
    match reshapeNp tensor shape_tmp with
    | none => Except.error DipError.sizeMismatch
    | some temp1 =>
      match reshapeNp (transposeAlotNp temp1 [0, 2, 4, 1, 3]) final_shape with
      | none => Except.error DipError.sizeMismatch
      | some temp3 => Except.ok temp3
  else Except.error DipError.shapeError

/-! Verification of the selection-swap loop. -/

/-- Invariant of the outer loop before iteration `i`: the bookkeeping list
has full length, is a rearrangement of `0, …, n-1`, and already agrees with
the target permutation strictly below `i`. -/
def CurInv (perm : List Nat) (i : Nat) (cur : List Nat) : Prop :=
  cur.length = perm.length ∧ ValidPerm cur ∧
    ∀ k, k < i → cur.getD k 0 = perm.getD k 0

instance decValidPerm (p : List Nat) : Decidable (ValidPerm p) :=
  inferInstanceAs (Decidable (p.Perm (List.range p.length)))

instance decWF {α : Type} (t : NpTensor α) : Decidable t.WF :=
  inferInstanceAs (Decidable (t.data.length = t.shape.prod))

/-- The inverse of a permutation list: entry `k` is the position at which
`p` holds `k`. -/
def invPermList (p : List Nat) : List Nat :=
  (List.range p.length).map (fun k => List.indexOf k p)

/-- The input of the reference test `test_depth_increasing_pooling`
(source lines 66-77): a (2,4,4) tensor, channel 0 rows
`[0,1,2,3], [10,11,12,13], [20,21,22,23], [30,31,32,33]`, channel 1 the
same pattern plus 100.  The test stores these integer values in a float
dtype; the values themselves are exact small integers, embedded here as
`Nat`. -/
def testData : NpTensor Nat :=
  ⟨[2, 4, 4],
   [0, 1, 2, 3, 10, 11, 12, 13, 20, 21, 22, 23, 30, 31, 32, 33,
    100, 101, 102, 103, 110, 111, 112, 113, 120, 121, 122, 123,
    130, 131, 132, 133]⟩

/-- The expected output of the reference test (source lines 79-101): an
(8,2,2) tensor whose channels are `[[0,2],[20,22]]`, `[[1,3],[21,23]]`,
`[[10,12],[30,32]]`, `[[11,13],[31,33]]` and the same four patterns
shifted by +100. -/
def expectedData : NpTensor Nat :=
  ⟨[8, 2, 2],
   [0, 2, 20, 22, 1, 3, 21, 23, 10, 12, 30, 32, 11, 13, 31, 33,
    100, 102, 120, 122, 101, 103, 121, 123, 110, 112, 130, 132,
    111, 113, 131, 133]⟩

/-! All theorems follow. -/

theorem prod_pos_of_validIdx {s idx : List Nat} (h : validIdx s idx = true) :
    0 < s.prod := by
  induction s generalizing idx with
  | nil => simp
  | cons d ds ih =>
    cases idx with
    | nil => simp [validIdx] at h
    | cons i is =>
      simp only [validIdx, Bool.and_eq_true, decide_eq_true_eq] at h
      have := ih h.2
      have : 0 < d := Nat.lt_of_le_of_lt (Nat.zero_le i) h.1
      simp only [List.prod_cons]
      exact Nat.mul_pos this (ih h.2)

theorem linIdx_lt_prod {s idx : List Nat} (h : validIdx s idx = true) :
    linIdx s idx < s.prod := by
  induction s generalizing idx with
  | nil =>
    cases idx with
    | nil => simp [linIdx]
    | cons i is => simp [validIdx] at h
  | cons d ds ih =>
    cases idx with
    | nil => simp [validIdx] at h
    | cons i is =>
      simp only [validIdx, Bool.and_eq_true, decide_eq_true_eq] at h
      have hr := ih h.2
      simp only [linIdx, List.prod_cons]
      calc i * ds.prod + linIdx ds is < i * ds.prod + ds.prod :=
            Nat.add_lt_add_left hr _
        _ = (i + 1) * ds.prod := by ring
        _ ≤ d * ds.prod := Nat.mul_le_mul_right _ h.1

theorem unlin_linIdx {s idx : List Nat} (h : validIdx s idx = true) :
    unlin s (linIdx s idx) = idx := by
  induction s generalizing idx with
  | nil =>
    cases idx with
    | nil => simp [unlin]
    | cons i is => simp [validIdx] at h
  | cons d ds ih =>
    cases idx with
    | nil => simp [validIdx] at h
    | cons i is =>
      simp only [validIdx, Bool.and_eq_true, decide_eq_true_eq] at h
      have hP : 0 < ds.prod := prod_pos_of_validIdx h.2
      have hr : linIdx ds is < ds.prod := linIdx_lt_prod h.2
      simp only [linIdx, unlin, List.cons.injEq]
      constructor
      · rw [Nat.add_comm, Nat.add_mul_div_right _ _ hP,
          Nat.div_eq_of_lt hr, Nat.zero_add]
      · rw [Nat.add_comm, Nat.add_mul_mod_self_right, Nat.mod_eq_of_lt hr]
        exact ih h.2

theorem validIdx_unlin {s : List Nat} {m : Nat} (h : m < s.prod) :
    validIdx s (unlin s m) = true := by
  induction s generalizing m with
  | nil => simp [unlin, validIdx]
  | cons d ds ih =>
    simp only [List.prod_cons] at h
    have hP : 0 < ds.prod := by
      rcases Nat.eq_zero_or_pos ds.prod with h0 | h0
      · rw [h0, Nat.mul_zero] at h; omega
      · exact h0
    simp only [unlin, validIdx, Bool.and_eq_true, decide_eq_true_eq]
    refine ⟨?_, ih (Nat.mod_lt _ hP)⟩
    exact (Nat.div_lt_iff_lt_mul hP).2 (by omega)

theorem linIdx_unlin {s : List Nat} {m : Nat} (h : m < s.prod) :
    linIdx s (unlin s m) = m := by
  induction s generalizing m with
  | nil =>
    simp only [List.prod_nil] at h
    interval_cases m
    simp [unlin, linIdx]
  | cons d ds ih =>
    simp only [List.prod_cons] at h
    have hP : 0 < ds.prod := by
      rcases Nat.eq_zero_or_pos ds.prod with h0 | h0
      · rw [h0, Nat.mul_zero] at h; omega
      · exact h0
    simp only [unlin, linIdx]
    rw [ih (Nat.mod_lt _ hP)]
    rw [Nat.mul_comm]
    exact Nat.div_add_mod m ds.prod

/-- Two well-formed tensors with the same shape and the same element at
every valid multi-index are equal. -/
theorem NpTensor.ext_el {α : Type} [Inhabited α] {t₁ t₂ : NpTensor α}
    (h₁ : t₁.WF) (h₂ : t₂.WF) (hs : t₁.shape = t₂.shape)
    (he : ∀ idx, validIdx t₁.shape idx = true → t₁.el idx = t₂.el idx) :
    t₁ = t₂ := by
  obtain ⟨s₁, d₁⟩ := t₁
  obtain ⟨s₂, d₂⟩ := t₂
  simp only [NpTensor.mk.injEq] at hs ⊢
  subst hs
  refine ⟨rfl, ?_⟩
  unfold NpTensor.WF at h₁ h₂
  simp only at h₁ h₂
  apply List.ext_getElem (by omega)
  intro m hm₁ hm₂
  have hmp : m < s₁.prod := by omega
  have hv := validIdx_unlin hmp
  have := he (unlin s₁ m) hv
  simp only [NpTensor.el, linIdx_unlin hmp] at this
  rw [List.getD_eq_getElem _ _ hm₁, List.getD_eq_getElem _ _ hm₂] at this
  exact this

theorem ValidPerm.nodup {p : List Nat} (h : ValidPerm p) : p.Nodup :=
  h.symm.nodup (List.nodup_range p.length)

theorem ValidPerm.mem_iff {p : List Nat} (h : ValidPerm p) {a : Nat} :
    a ∈ p ↔ a < p.length := by
  have h' : p.Perm (List.range p.length) := h
  rw [List.Perm.mem_iff h', List.mem_range]

/-- Two lists of naturals agreeing in length and in `getD` below the
length are equal. -/
theorem ext_getD {l₁ l₂ : List Nat} (hlen : l₁.length = l₂.length)
    (h : ∀ k, k < l₁.length → l₁.getD k 0 = l₂.getD k 0) : l₁ = l₂ := by
  apply List.ext_getElem hlen
  intro k h₁ h₂
  rw [← List.getD_eq_getElem l₁ 0 h₁, ← List.getD_eq_getElem l₂ 0 h₂]
  exact h k h₁

theorem getD_range {n i : Nat} (h : i < n) : (List.range n).getD i 0 = i := by
  rw [List.getD_eq_getElem _ _ (by simpa using h), List.getElem_range]

theorem validPerm_range (n : Nat) : ValidPerm (List.range n) := by
  unfold ValidPerm
  rw [List.length_range]

theorem ValidPerm.getD_lt {p : List Nat} (h : ValidPerm p) {k : Nat}
    (hk : k < p.length) : p.getD k 0 < p.length := by
  rw [List.getD_eq_getElem _ _ hk]
  exact h.mem_iff.1 (List.getElem_mem hk)

theorem ValidPerm.indexOf_lt {p : List Nat} (h : ValidPerm p) {a : Nat}
    (ha : a < p.length) : List.indexOf a p < p.length :=
  List.indexOf_lt_length.2 (h.mem_iff.2 ha)

theorem ValidPerm.getD_indexOf {p : List Nat} (h : ValidPerm p) {a : Nat}
    (ha : a < p.length) : p.getD (List.indexOf a p) 0 = a := by
  rw [List.getD_eq_getElem _ _ (h.indexOf_lt ha)]
  exact List.getElem_indexOf _

theorem ValidPerm.getD_inj {p : List Nat} (h : ValidPerm p) {k k' : Nat}
    (hk : k < p.length) (hk' : k' < p.length)
    (he : p.getD k 0 = p.getD k' 0) : k = k' := by
  rw [List.getD_eq_getElem _ _ hk, List.getD_eq_getElem _ _ hk'] at he
  exact (h.nodup.getElem_inj_iff).1 he

theorem ValidPerm.indexOf_getD {p : List Nat} (h : ValidPerm p) {k : Nat}
    (hk : k < p.length) : List.indexOf (p.getD k 0) p = k := by
  have ha : p.getD k 0 < p.length := h.getD_lt hk
  exact h.getD_inj (h.indexOf_lt ha) hk (h.getD_indexOf ha)

theorem length_applyPerm (perm l : List Nat) :
    (applyPerm perm l).length = perm.length := by
  simp [applyPerm]

theorem getD_applyPerm {perm l : List Nat} {k : Nat} (hk : k < perm.length) :
    (applyPerm perm l).getD k 0 = l.getD (perm.getD k 0) 0 := by
  unfold applyPerm
  rw [List.getD_eq_getElem _ _ (by simpa using hk), List.getElem_map,
    List.getD_eq_getElem _ _ hk]

theorem length_invApply (perm idx : List Nat) :
    (invApply perm idx).length = perm.length := by
  simp [invApply]

theorem getD_invApply {perm idx : List Nat} {k : Nat} (hk : k < perm.length) :
    (invApply perm idx).getD k 0 = idx.getD (List.indexOf k perm) 0 := by
  unfold invApply
  rw [List.getD_eq_getElem _ _ (by simpa using hk), List.getElem_map,
    List.getElem_range]

theorem map_getD_range (l : List Nat) :
    (List.range l.length).map (fun k => l.getD k 0) = l := by
  apply List.ext_getElem (by simp)
  intro k h₁ h₂
  rw [List.getElem_map, List.getElem_range, List.getD_eq_getElem _ _ h₂]

theorem applyPerm_range (l : List Nat) : applyPerm (List.range l.length) l = l :=
  map_getD_range l

theorem ValidPerm.comp {q p : List Nat} (hq : ValidPerm q) (hp : ValidPerm p)
    (hlen : q.length = p.length) : ValidPerm (applyPerm q p) := by
  have hq' : q.Perm (List.range q.length) := hq
  have hp' : p.Perm (List.range p.length) := hp
  unfold ValidPerm
  rw [length_applyPerm, hlen]
  have h1 : (applyPerm q p).Perm ((List.range q.length).map (fun k => p.getD k 0)) :=
    List.Perm.map _ hq'
  rw [hlen, map_getD_range p] at h1
  exact h1.trans hp'

theorem invApply_applyPerm {p j : List Nat} (hp : ValidPerm p)
    (hj : j.length = p.length) : invApply p (applyPerm p j) = j := by
  apply ext_getD (by rw [length_invApply]; omega)
  intro k hk
  rw [length_invApply] at hk
  rw [getD_invApply hk, getD_applyPerm (hp.indexOf_lt hk), hp.getD_indexOf hk]

theorem invApply_invApply {p q idx : List Nat} (hp : ValidPerm p)
    (hq : ValidPerm q) (hlen : q.length = p.length) :
    invApply p (invApply q idx) = invApply (applyPerm q p) idx := by
  have hc : ValidPerm (applyPerm q p) := hq.comp hp hlen
  apply ext_getD (by rw [length_invApply, length_invApply, length_applyPerm, hlen])
  intro k hk
  rw [length_invApply] at hk
  rw [getD_invApply hk, getD_invApply (by rw [hlen]; exact hp.indexOf_lt hk)]
  rw [getD_invApply (by rw [length_applyPerm, hlen]; exact hk)]
  congr 1
  have hk₁ : List.indexOf k p < p.length := hp.indexOf_lt hk
  have hk₂ : List.indexOf (List.indexOf k p) q < q.length :=
    hq.indexOf_lt (by omega)
  have hval : (applyPerm q p).getD (List.indexOf (List.indexOf k p) q) 0 = k := by
    rw [getD_applyPerm hk₂, hq.getD_indexOf (by omega), hp.getD_indexOf hk]
  have hfin := hc.indexOf_getD (k := List.indexOf (List.indexOf k p) q)
    (by rw [length_applyPerm]; exact hk₂)
  rw [hval] at hfin
  omega

theorem validIdx_iff {s idx : List Nat} :
    validIdx s idx = true ↔
      idx.length = s.length ∧
        ∀ k, k < s.length → idx.getD k 0 < s.getD k 0 := by
  induction s generalizing idx with
  | nil =>
    cases idx with
    | nil => simp [validIdx]
    | cons i is => simp [validIdx]
  | cons d ds ih =>
    cases idx with
    | nil => simp [validIdx]
    | cons i is =>
      simp only [validIdx, Bool.and_eq_true, decide_eq_true_eq, ih,
        List.length_cons]
      constructor
      · rintro ⟨h1, h2, h3⟩
        refine ⟨by omega, ?_⟩
        intro k hk
        cases k with
        | zero => simpa using h1
        | succ k => simpa using h3 k (by omega)
      · rintro ⟨h1, h2⟩
        refine ⟨by simpa using h2 0 (by omega), by omega, ?_⟩
        intro k hk
        simpa using h2 (k + 1) (by omega)

theorem shape_npTranspose {α : Type} [Inhabited α] (t : NpTensor α)
    (perm : List Nat) : (npTranspose t perm).shape = applyPerm perm t.shape :=
  rfl

theorem WF_npTranspose {α : Type} [Inhabited α] (t : NpTensor α)
    (perm : List Nat) : (npTranspose t perm).WF := by
  simp [NpTensor.WF, npTranspose]

theorem el_npTranspose {α : Type} [Inhabited α] {t : NpTensor α}
    {perm idx : List Nat}
    (h : validIdx (applyPerm perm t.shape) idx = true) :
    (npTranspose t perm).el idx = t.el (invApply perm idx) := by
  have hlt : linIdx (applyPerm perm t.shape) idx < (applyPerm perm t.shape).prod :=
    linIdx_lt_prod h
  unfold NpTensor.el npTranspose
  simp only
  rw [List.getD_eq_getElem _ _ (by simpa using hlt), List.getElem_map,
    List.getElem_range, unlin_linIdx h]
  rfl

theorem validIdx_applyPerm {p s j : List Nat} (hp : ValidPerm p)
    (hlen : p.length = s.length) (h : validIdx s j = true) :
    validIdx (applyPerm p s) (applyPerm p j) = true := by
  rw [validIdx_iff] at h ⊢
  obtain ⟨h1, h2⟩ := h
  refine ⟨by rw [length_applyPerm, length_applyPerm], ?_⟩
  intro k hk
  rw [length_applyPerm] at hk
  rw [getD_applyPerm hk, getD_applyPerm hk]
  exact h2 _ (by rw [← hlen]; exact hp.getD_lt hk)

theorem validIdx_invApply {p s idx : List Nat} (hp : ValidPerm p)
    (hlen : p.length = s.length)
    (h : validIdx (applyPerm p s) idx = true) :
    validIdx s (invApply p idx) = true := by
  rw [validIdx_iff] at h ⊢
  obtain ⟨h1, h2⟩ := h
  rw [length_applyPerm] at h1 h2
  refine ⟨by rw [length_invApply]; omega, ?_⟩
  intro pos hpos
  have hpos' : pos < p.length := by omega
  rw [getD_invApply hpos']
  have hidx : List.indexOf pos p < p.length := hp.indexOf_lt hpos'
  have := h2 _ hidx
  rwa [getD_applyPerm hidx, hp.getD_indexOf hpos'] at this

theorem npTranspose_id {α : Type} [Inhabited α] {t : NpTensor α}
    (ht : t.WF) : npTranspose t (List.range t.shape.length) = t := by
  have hperm := validPerm_range t.shape.length
  have hshape : applyPerm (List.range t.shape.length) t.shape = t.shape :=
    applyPerm_range t.shape
  apply NpTensor.ext_el (WF_npTranspose t _) ht
  · rw [shape_npTranspose, hshape]
  · intro idx hv
    rw [shape_npTranspose, hshape] at hv
    rw [el_npTranspose (by rwa [hshape])]
    congr 1
    have hlen : idx.length = t.shape.length := (validIdx_iff.1 hv).1
    apply ext_getD (by rw [length_invApply, List.length_range]; omega)
    intro k hk
    rw [length_invApply, List.length_range] at hk
    rw [getD_invApply (by simpa using hk)]
    congr 1
    have : (List.range t.shape.length).getD k 0 = k := getD_range hk
    have h2 := hperm.indexOf_getD (k := k) (by simpa using hk)
    rwa [this] at h2

theorem applyPerm_applyPerm {q p s : List Nat} (hq : ValidPerm q)
    (hlen : q.length = p.length) :
    applyPerm q (applyPerm p s) = applyPerm (applyPerm q p) s := by
  apply ext_getD (by rw [length_applyPerm, length_applyPerm, length_applyPerm])
  intro k hk
  rw [length_applyPerm] at hk
  rw [@getD_applyPerm q (applyPerm p s) k hk,
    @getD_applyPerm p s _ (by rw [← hlen]; exact hq.getD_lt hk),
    @getD_applyPerm (applyPerm q p) s k (by rw [length_applyPerm]; exact hk),
    @getD_applyPerm q p k hk]

theorem npTranspose_comp {α : Type} [Inhabited α] {t : NpTensor α}
    {p q : List Nat} (hp : ValidPerm p) (hq : ValidPerm q)
    (hqlen : q.length = p.length) :
    npTranspose (npTranspose t p) q = npTranspose t (applyPerm q p) := by
  have hshape : applyPerm q (applyPerm p t.shape) = applyPerm (applyPerm q p) t.shape :=
    applyPerm_applyPerm hq hqlen
  apply NpTensor.ext_el (WF_npTranspose _ _) (WF_npTranspose _ _)
  · rw [shape_npTranspose, shape_npTranspose, shape_npTranspose, hshape]
  · intro idx hv
    rw [shape_npTranspose, shape_npTranspose] at hv
    rw [el_npTranspose (by rwa [shape_npTranspose])]
    have hv' : validIdx (applyPerm p t.shape) (invApply q idx) = true := by
      apply validIdx_invApply hq (by rw [hqlen, length_applyPerm])
      exact hv
    rw [el_npTranspose hv']
    rw [el_npTranspose (t := t) (by rw [← hshape]; exact hv)]
    rw [invApply_invApply hp hq hqlen]

theorem swapFun_invol (i j k : Nat) : swapFun i j (swapFun i j k) = k := by
  unfold swapFun
  split_ifs <;> omega

theorem swapFun_lt {n i j k : Nat} (hi : i < n) (hj : j < n) (hk : k < n) :
    swapFun i j k < n := by
  unfold swapFun
  split_ifs <;> omega

theorem length_swapPerm (n i j : Nat) : (swapPerm n i j).length = n := by
  simp [swapPerm]

theorem getD_swapPerm {n i j k : Nat} (hk : k < n) :
    (swapPerm n i j).getD k 0 = swapFun i j k := by
  unfold swapPerm
  rw [List.getD_eq_getElem _ _ (by simpa using hk), List.getElem_map,
    List.getElem_range]

theorem validPerm_swapPerm {n i j : Nat} (hi : i < n) (hj : j < n) :
    ValidPerm (swapPerm n i j) := by
  unfold ValidPerm
  rw [length_swapPerm]
  have hnd : (swapPerm n i j).Nodup := by
    apply List.Nodup.map_on
    · intro x _ y _ hxy
      have := congrArg (swapFun i j) hxy
      rwa [swapFun_invol, swapFun_invol] at this
    · exact List.nodup_range n
  have hsub : swapPerm n i j ⊆ List.range n := by
    intro a ha
    simp only [swapPerm, List.mem_map, List.mem_range] at ha
    obtain ⟨k, hk, rfl⟩ := ha
    exact List.mem_range.2 (swapFun_lt hi hj hk)
  have hsp := hnd.subperm hsub
  exact hsp.perm_of_length_le (by rw [length_swapPerm, List.length_range])

theorem length_swapList (l : List Nat) (i j : Nat) :
    (swapList l i j).length = l.length := by
  simp [swapList]

theorem swapList_eq_applyPerm {l : List Nat} {i j : Nat} (hi : i < l.length)
    (hj : j < l.length) :
    swapList l i j = applyPerm (swapPerm l.length i j) l := by
  apply ext_getD (by rw [length_swapList, length_applyPerm, length_swapPerm])
  intro k hk
  rw [length_swapList] at hk
  rw [getD_applyPerm (by rwa [length_swapPerm]), getD_swapPerm hk]
  unfold swapList swapFun
  by_cases hkj : k = j
  · subst hkj
    rw [List.getD_eq_getElem _ _ (by simpa using hk),
      List.getElem_set_self (by simpa using hk)]
    split_ifs with h1 h2
    · rw [h1]
    · rfl
    · omega
  · by_cases hki : k = i
    · subst hki
      rw [List.getD_eq_getElem _ _ (by simpa using hk),
        List.getElem_set_ne (by omega) (by simpa using hk),
        List.getElem_set_self (by simpa using hk),
        if_pos rfl]
    · rw [List.getD_eq_getElem _ _ (by simpa using hk),
        List.getElem_set_ne (by omega) (by simpa using hk),
        List.getElem_set_ne (by omega) (by simpa using hk),
        if_neg hki, if_neg hkj, List.getD_eq_getElem _ _ hk]

theorem getD_swapList_other {l : List Nat} {i j k : Nat} (hki : k ≠ i)
    (hkj : k ≠ j) : (swapList l i j).getD k 0 = l.getD k 0 := by
  by_cases hk : k < l.length
  · unfold swapList
    rw [List.getD_eq_getElem _ _ (by simpa using hk),
      List.getElem_set_ne (by omega) (by simpa using hk),
      List.getElem_set_ne (by omega) (by simpa using hk),
      List.getD_eq_getElem _ _ hk]
  · rw [List.getD_eq_default _ _ (by rw [length_swapList]; omega),
      List.getD_eq_default _ _ (by omega)]

theorem getD_swapList_left {l : List Nat} {i j : Nat} (hij : i ≠ j)
    (hi : i < l.length) : (swapList l i j).getD i 0 = l.getD j 0 := by
  unfold swapList
  rw [List.getD_eq_getElem _ _ (by simpa using hi),
    List.getElem_set_ne (by omega) (by simpa using hi),
    List.getElem_set_self (by simpa using hi)]

theorem findFrom_spec {cur : List Nat} {i n target : Nat}
    (hex : ∃ m, i ≤ m ∧ m < n ∧ cur.getD m 0 = target) :
    i ≤ findFrom cur i n target ∧ findFrom cur i n target < n ∧
      cur.getD (findFrom cur i n target) 0 = target := by
  obtain ⟨m, him, hmn, hm⟩ := hex
  unfold findFrom
  cases hfind : (List.range' i (n - i)).find? (fun j => cur.getD j 0 == target) with
  | none =>
    exfalso
    have hmem : m ∈ List.range' i (n - i) := List.mem_range'_1.2 ⟨him, by omega⟩
    have h2 := List.find?_eq_none.1 hfind m hmem
    apply h2
    simp only [beq_iff_eq]
    exact hm
  | some j =>
    have hj := List.find?_some hfind
    have hjm := List.mem_of_find?_eq_some hfind
    rw [List.mem_range'_1] at hjm
    simp only [beq_iff_eq] at hj
    show i ≤ j ∧ j < n ∧ cur.getD j 0 = target
    exact ⟨hjm.1, by omega, hj⟩

theorem findFrom_props {perm cur : List Nat} (hp : ValidPerm perm)
    {i : Nat} (hi : i < perm.length) (h : CurInv perm i cur) :
    i ≤ findFrom cur i perm.length (perm.getD i 0) ∧
      findFrom cur i perm.length (perm.getD i 0) < perm.length ∧
      cur.getD (findFrom cur i perm.length (perm.getD i 0)) 0 = perm.getD i 0 := by
  obtain ⟨hlen, hvp, hpre⟩ := h
  apply findFrom_spec
  have htar : perm.getD i 0 < perm.length := hp.getD_lt hi
  have hmem : perm.getD i 0 ∈ cur := hvp.mem_iff.2 (by omega)
  refine ⟨List.indexOf (perm.getD i 0) cur, ?_, ?_, ?_⟩
  · by_contra hlt
    push_neg at hlt
    have h1 : cur.getD (List.indexOf (perm.getD i 0) cur) 0 = perm.getD i 0 :=
      hvp.getD_indexOf (by omega)
    have h2 := hpre _ hlt
    rw [h1] at h2
    have := hp.getD_inj (by omega) hi h2.symm
    omega
  · have := List.indexOf_lt_length.2 hmem
    omega
  · exact hvp.getD_indexOf (by omega)

theorem dipStep_curInv {α : Type} [Inhabited α] {perm : List Nat}
    (hp : ValidPerm perm) {i : Nat} (hi : i < perm.length)
    {st : (NpTensor α × List Nat) × Nat} (h : CurInv perm i st.1.2) :
    CurInv perm (i + 1) (dipStep perm st i).1.2 := by
  obtain ⟨hlen, hvp, hpre⟩ := h
  unfold dipStep
  split_ifs with hc
  · obtain ⟨hji, hjn, hjval⟩ := findFrom_props hp hi ⟨hlen, hvp, hpre⟩
    set j := findFrom st.1.2 i perm.length (perm.getD i 0) with hj_def
    have hij : i ≠ j := by
      intro hij
      rw [← hij] at hjval
      exact hc hjval.symm
    have hi' : i < st.1.2.length := by omega
    have hj' : j < st.1.2.length := by omega
    have hswap := swapList_eq_applyPerm hi' hj'
    refine ⟨?_, ?_, ?_⟩
    · show (swapList st.1.2 i j).length = perm.length
      rw [length_swapList]; omega
    · show ValidPerm (swapList st.1.2 i j)
      rw [hswap]
      exact (validPerm_swapPerm hi' hj').comp hvp (by rw [length_swapPerm])
    · show ∀ k, k < i + 1 → (swapList st.1.2 i j).getD k 0 = perm.getD k 0
      intro k hk
      by_cases hki : k = i
      · subst hki
        rw [getD_swapList_left hij hi', hjval]
      · have hklt : k < i := by omega
        rw [getD_swapList_other hki (by omega)]
        exact hpre k hklt
  · exact ⟨hlen, hvp, fun k hk => by
      by_cases hki : k = i
      · subst hki; push_neg at hc; exact hc.symm
      · exact hpre k (by omega)⟩

theorem dipStep_model {α : Type} [Inhabited α] {t : NpTensor α}
    {perm : List Nat} (hp : ValidPerm perm) {i : Nat} (hi : i < perm.length)
    {st : (NpTensor α × List Nat) × Nat} (hcur : CurInv perm i st.1.2)
    (hm : st.1.1 = npTranspose t st.1.2) :
    (dipStep perm st i).1.1 = npTranspose t (dipStep perm st i).1.2 := by
  obtain ⟨hlen, hvp, hpre⟩ := hcur
  unfold dipStep
  split_ifs with hc
  · obtain ⟨hji, hjn, hjval⟩ := findFrom_props hp hi ⟨hlen, hvp, hpre⟩
    set j := findFrom st.1.2 i perm.length (perm.getD i 0) with hj_def
    have hi' : i < st.1.2.length := by omega
    have hj' : j < st.1.2.length := by omega
    show npSwapaxes st.1.1 i j = npTranspose t (swapList st.1.2 i j)
    rw [hm]
    unfold npSwapaxes
    have hsl : (npTranspose t st.1.2).shape.length = st.1.2.length := by
      rw [shape_npTranspose, length_applyPerm]
    rw [hsl]
    rw [npTranspose_comp hvp (validPerm_swapPerm hi' hj') (by rw [length_swapPerm])]
    rw [← swapList_eq_applyPerm hi' hj']
  · exact hm

theorem dipFold_curInv {α : Type} [Inhabited α] {perm : List Nat}
    (hp : ValidPerm perm) :
    ∀ (b a : Nat) (st : (NpTensor α × List Nat) × Nat),
      a + b ≤ perm.length → CurInv perm a st.1.2 →
      CurInv perm (a + b) (((List.range' a b).foldl (dipStep perm) st)).1.2 := by
  intro b
  induction b with
  | zero => intro a st _ h; simpa using h
  | succ b ih =>
    intro a st hab h
    rw [List.range'_succ]
    simp only [List.foldl_cons]
    have h1 := dipStep_curInv hp (by omega : a < perm.length) h
    have h2 := ih (a + 1) (dipStep perm st a) (by omega) h1
    have he : a + 1 + b = a + (b + 1) := by omega
    rwa [he] at h2

theorem dipFold_inv {α : Type} [Inhabited α] {t : NpTensor α}
    {perm : List Nat} (hp : ValidPerm perm) :
    ∀ (b a : Nat) (st : (NpTensor α × List Nat) × Nat),
      a + b ≤ perm.length → CurInv perm a st.1.2 →
      st.1.1 = npTranspose t st.1.2 →
      ((List.range' a b).foldl (dipStep perm) st).1.1 =
        npTranspose t (((List.range' a b).foldl (dipStep perm) st)).1.2 := by
  intro b
  induction b with
  | zero => intro a st _ _ h; simpa using h
  | succ b ih =>
    intro a st hab hcur hm
    rw [List.range'_succ]
    simp only [List.foldl_cons]
    exact ih (a + 1) (dipStep perm st a) (by omega)
      (dipStep_curInv hp (by omega : a < perm.length) hcur)
      (dipStep_model hp (by omega : a < perm.length) hcur hm)

/-- Two rearrangements of `0, …, n-1` that agree everywhere except possibly
at the last position agree there as well. -/
theorem perm_eq_of_agree_init {cur perm : List Nat} (hvp : ValidPerm cur)
    (hp : ValidPerm perm) (hlen : cur.length = perm.length)
    (hpre : ∀ k, k < perm.length - 1 → cur.getD k 0 = perm.getD k 0)
    (hn : 0 < perm.length) : cur = perm := by
  have hcp : cur.Perm perm := by
    have h1 : cur.Perm (List.range cur.length) := hvp
    have h2 : perm.Perm (List.range perm.length) := hp
    rw [hlen] at h1
    exact h1.trans h2.symm
  have hct : cur = cur.take (perm.length - 1) ++ [cur.getD (perm.length - 1) 0] := by
    conv_lhs => rw [← List.take_append_drop (perm.length - 1) cur]
    congr 1
    rw [List.drop_eq_getElem_cons (by omega)]
    rw [List.getD_eq_getElem _ _ (by omega)]
    congr 1
    apply List.drop_eq_nil_of_le
    omega
  have hpt : perm = perm.take (perm.length - 1) ++ [perm.getD (perm.length - 1) 0] := by
    conv_lhs => rw [← List.take_append_drop (perm.length - 1) perm]
    congr 1
    rw [List.drop_eq_getElem_cons (by omega)]
    rw [List.getD_eq_getElem _ _ (by omega)]
    congr 1
    apply List.drop_eq_nil_of_le
    omega
  have htake : cur.take (perm.length - 1) = perm.take (perm.length - 1) := by
    apply ext_getD
    · rw [List.length_take, List.length_take]; omega
    · intro k hk
      rw [List.length_take] at hk
      have hk1 : k < perm.length - 1 := by omega
      rw [List.getD_eq_getElem _ _ (by rw [List.length_take]; omega),
        List.getD_eq_getElem _ _ (by rw [List.length_take]; omega),
        List.getElem_take, List.getElem_take,
        ← List.getD_eq_getElem cur 0 (by omega),
        ← List.getD_eq_getElem perm 0 (by omega)]
      exact hpre k hk1
  have hx : cur.getD (perm.length - 1) 0 = perm.getD (perm.length - 1) 0 := by
    have h3 : (cur.take (perm.length - 1) ++ [cur.getD (perm.length - 1) 0]).Perm
        (perm.take (perm.length - 1) ++ [perm.getD (perm.length - 1) 0]) := by
      rw [← hct, ← hpt]
      exact hcp
    rw [htake] at h3
    exact List.singleton_perm_singleton.1 ((List.perm_append_left_iff _).1 h3)
  rw [hct, htake, hx]
  exact hpt.symm

theorem dipLoop_cur_eq {α : Type} [Inhabited α] (t : NpTensor α)
    {perm : List Nat} (hp : ValidPerm perm) : (dipLoop t perm).1.2 = perm := by
  have hinit : CurInv perm 0 (dipInit t perm).1.2 := by
    refine ⟨by simp [dipInit], ?_, fun k hk => by omega⟩
    show ValidPerm (List.range perm.length)
    exact validPerm_range perm.length
  by_cases hn : perm.length = 0
  · have hpe : perm = [] := List.length_eq_zero.1 hn
    subst hpe
    simp [dipLoop, dipInit]
  · have h2 := dipFold_curInv hp (perm.length - 1) 0 (dipInit t perm) (by omega) hinit
    rw [Nat.zero_add] at h2
    unfold dipLoop
    rw [List.range_eq_range']
    obtain ⟨hlen, hvp, hpre⟩ := h2
    exact perm_eq_of_agree_init hvp hp hlen hpre (by omega)

/-- Core refinement result: on a well-formed tensor whose rank matches the
permutation length, the selection-swap loop computes exactly the direct
general transpose. -/
theorem transposeAlot_eq {α : Type} [Inhabited α] {t : NpTensor α}
    {perm : List Nat} (ht : t.WF) (hlen : t.shape.length = perm.length)
    (hp : ValidPerm perm) : transposeAlotNp t perm = npTranspose t perm := by
  have hinit : CurInv perm 0 (dipInit t perm).1.2 := by
    refine ⟨by simp [dipInit], ?_, fun k hk => by omega⟩
    show ValidPerm (List.range perm.length)
    exact validPerm_range perm.length
  have hinitm : (dipInit t perm).1.1 = npTranspose t (dipInit t perm).1.2 := by
    show t = npTranspose t (List.range perm.length)
    rw [← hlen]
    exact (npTranspose_id ht).symm
  have hmodel : (dipLoop t perm).1.1 = npTranspose t ((dipLoop t perm).1.2) := by
    unfold dipLoop
    rw [List.range_eq_range']
    exact dipFold_inv hp (perm.length - 1) 0 (dipInit t perm) (by omega) hinit hinitm
  unfold transposeAlotNp
  rw [hmodel, dipLoop_cur_eq t hp]

theorem foldl_fixed {β γ : Type} {f : β → γ → β} {st : β} :
    ∀ {L : List γ}, (∀ x ∈ L, f st x = st) → L.foldl f st = st := by
  intro L
  induction L with
  | nil => intro _; rfl
  | cons a L ih =>
    intro h
    rw [List.foldl_cons, h a (List.mem_cons_self a L)]
    exact ih (fun x hx => h x (List.mem_cons_of_mem a hx))

theorem transposeAlot_range {α : Type} [Inhabited α] (t : NpTensor α)
    (n : Nat) : transposeAlotNp t (List.range n) = t := by
  unfold transposeAlotNp dipLoop
  have hfix : (List.range ((List.range n).length - 1)).foldl
      (dipStep (List.range n)) (dipInit t (List.range n)) =
        dipInit t (List.range n) := by
    apply foldl_fixed
    intro i hi
    rw [List.length_range, List.mem_range] at hi
    unfold dipStep
    rw [if_neg]
    intro hne
    apply hne
    show (List.range n).getD i 0 = (List.range (List.range n).length).getD i 0
    rw [List.length_range]
  rw [hfix]
  rfl

theorem dipStep_count {α : Type} [Inhabited α] {perm : List Nat}
    {st : (NpTensor α × List Nat) × Nat} {i : Nat} :
    (dipStep perm st i).2 ≤ st.2 + 1 := by
  unfold dipStep
  split_ifs
  · exact Nat.le_refl _
  · omega

theorem foldl_dipStep_count {α : Type} [Inhabited α] {perm : List Nat} :
    ∀ (L : List Nat) (st : (NpTensor α × List Nat) × Nat),
      (L.foldl (dipStep perm) st).2 ≤ st.2 + L.length := by
  intro L
  induction L with
  | nil => intro st; simp
  | cons a L ih =>
    intro st
    rw [List.foldl_cons]
    have h1 := ih (dipStep perm st a)
    have h2 : (dipStep perm st a).2 ≤ st.2 + 1 := dipStep_count
    simp only [List.length_cons]
    omega

theorem length_invPermList (p : List Nat) :
    (invPermList p).length = p.length := by
  simp [invPermList]

theorem getD_invPermList {p : List Nat} {k : Nat} (hk : k < p.length) :
    (invPermList p).getD k 0 = List.indexOf k p := by
  unfold invPermList
  rw [List.getD_eq_getElem _ _ (by simpa using hk), List.getElem_map,
    List.getElem_range]

theorem validPerm_invPermList {p : List Nat} (hp : ValidPerm p) :
    ValidPerm (invPermList p) := by
  unfold ValidPerm
  rw [length_invPermList]
  have hnd : (invPermList p).Nodup := by
    apply List.Nodup.map_on
    · intro x hx y hy hxy
      rw [List.mem_range] at hx hy
      have h1 := hp.getD_indexOf hx
      have h2 := hp.getD_indexOf hy
      rw [← h1, ← h2, hxy]
    · exact List.nodup_range p.length
  have hsub : invPermList p ⊆ List.range p.length := by
    intro a ha
    simp only [invPermList, List.mem_map, List.mem_range] at ha
    obtain ⟨k, hk, rfl⟩ := ha
    exact List.mem_range.2 (hp.indexOf_lt hk)
  exact (hnd.subperm hsub).perm_of_length_le
    (by rw [length_invPermList, List.length_range])

theorem applyPerm_invPermList {p : List Nat} (hp : ValidPerm p) :
    applyPerm (invPermList p) p = List.range p.length := by
  apply ext_getD (by rw [length_applyPerm, length_invPermList, List.length_range])
  intro k hk
  rw [length_applyPerm, length_invPermList] at hk
  rw [getD_applyPerm (by rwa [length_invPermList]), getD_invPermList hk,
    hp.getD_indexOf hk, getD_range hk]

/-- Round-trip helper: permuting and then permuting by the inverse
restores the tensor. -/
theorem transposeAlot_roundtrip {α : Type} [Inhabited α] {t : NpTensor α}
    {perm : List Nat} (ht : t.WF) (hlen : t.shape.length = perm.length)
    (hp : ValidPerm perm) :
    transposeAlotNp (transposeAlotNp t perm) (invPermList perm) = t := by
  rw [transposeAlot_eq ht hlen hp]
  have hq := validPerm_invPermList hp
  rw [transposeAlot_eq (WF_npTranspose t perm)
    (by rw [shape_npTranspose, length_applyPerm, length_invPermList]) hq]
  rw [npTranspose_comp hp hq (by rw [length_invPermList])]
  rw [applyPerm_invPermList hp, ← hlen]
  exact npTranspose_id ht

/-! Helper computations for `depth_increasing_pooling` on a 3-axis
input. -/

theorem depth_increasing_pooling_three {α : Type} [Inhabited α]
    (t : NpTensor α) (ww wh c w h : Nat) (hs : t.shape = [c, w, h]) :
    depth_increasing_pooling t (ww, wh) none =
      match reshapeNp t [c, w / ww, ww, h / wh, wh] with
      | none => Except.error DipError.sizeMismatch
      | some temp1 =>
        match reshapeNp (transposeAlotNp temp1 [0, 2, 4, 1, 3])
            [c * ww * wh, w / ww, h / wh] with
        | none => Except.error DipError.sizeMismatch
        | some temp3 => Except.ok temp3 := by
  obtain ⟨s, d⟩ := t
  simp only at hs
  subst hs
  rfl

theorem dip_ok {α : Type} [Inhabited α] {t : NpTensor α} {c w h ww wh : Nat}
    (ht : t.WF) (hs : t.shape = [c, w, h]) (hww : ww ∣ w) (hwh : wh ∣ h) :
    depth_increasing_pooling t (ww, wh) none =
      Except.ok ⟨[c * ww * wh, w / ww, h / wh],
        (npTranspose (⟨[c, w / ww, ww, h / wh, wh], t.data⟩ : NpTensor α)
          [0, 2, 4, 1, 3]).data⟩ := by
  have hw : w / ww * ww = w := Nat.div_mul_cancel hww
  have hh : h / wh * wh = h := Nat.div_mul_cancel hwh
  have hprod : ([c, w / ww, ww, h / wh, wh] : List Nat).prod = t.shape.prod := by
    rw [hs]
    simp only [List.prod_cons, List.prod_nil]
    calc c * (w / ww * (ww * (h / wh * (wh * 1))))
        = c * ((w / ww * ww) * (h / wh * wh)) := by ring
      _ = c * (w * (h * 1)) := by rw [hw, hh]; ring
  have e1 : reshapeNp t [c, w / ww, ww, h / wh, wh] =
      some ⟨[c, w / ww, ww, h / wh, wh], t.data⟩ := by
    unfold reshapeNp
    rw [if_pos hprod]
  have htmp : (⟨[c, w / ww, ww, h / wh, wh], t.data⟩ : NpTensor α).WF := by
    show t.data.length = ([c, w / ww, ww, h / wh, wh] : List Nat).prod
    rw [ht, ← hprod]
  have e2 : transposeAlotNp (⟨[c, w / ww, ww, h / wh, wh], t.data⟩ : NpTensor α)
      [0, 2, 4, 1, 3] =
      npTranspose (⟨[c, w / ww, ww, h / wh, wh], t.data⟩ : NpTensor α)
        [0, 2, 4, 1, 3] :=
    transposeAlot_eq htmp (by rfl) (by decide)
  have hshape5 : applyPerm [0, 2, 4, 1, 3] [c, w / ww, ww, h / wh, wh] =
      [c, ww, wh, w / ww, h / wh] := rfl
  have e3 : reshapeNp (npTranspose
        (⟨[c, w / ww, ww, h / wh, wh], t.data⟩ : NpTensor α) [0, 2, 4, 1, 3])
      [c * ww * wh, w / ww, h / wh] =
      some ⟨[c * ww * wh, w / ww, h / wh],
        (npTranspose (⟨[c, w / ww, ww, h / wh, wh], t.data⟩ : NpTensor α)
          [0, 2, 4, 1, 3]).data⟩ := by
    unfold reshapeNp
    rw [if_pos]
    rw [shape_npTranspose, hshape5]
    simp only [List.prod_cons, List.prod_nil]
    ring
  rw [depth_increasing_pooling_three t ww wh c w h hs, e1]
  simp only
  rw [e2, e3]

theorem depth_increasing_pooling_eq_of_len3 {α : Type} [Inhabited α]
    (t : NpTensor α) (pw : Nat × Nat) (ish : Option (List Nat))
    (x y z : Nat) (hl : ish.getD t.shape = [x, y, z]) :
    depth_increasing_pooling t pw ish =
      match reshapeNp t [x, y / pw.1, pw.1, z / pw.2, pw.2] with
      | none => Except.error DipError.sizeMismatch
      | some temp1 =>
        match reshapeNp (transposeAlotNp temp1 [0, 2, 4, 1, 3])
            [x * pw.1 * pw.2, y / pw.1, z / pw.2] with
        | none => Except.error DipError.sizeMismatch
        | some temp3 => Except.ok temp3 := by
  unfold depth_increasing_pooling
  rw [hl]
  rfl

/-! Claim theorems. -/

/-- C1.  Index mapping law: for every 3-axis tensor of shape
`(channels, width, height)` with `ww ∣ width` and `wh ∣ height`, the
output of `depth_increasing_pooling` with window `(ww, wh)` holds at
position `(c'·ww·wh + r·wh + col, gx, gy)` the input element at
`(c', gx·ww + r, gy·wh + col)`, for all in-range `c', r, col, gx, gy`. -/
theorem claim1_index_mapping {α : Type} [Inhabited α] {t : NpTensor α}
    {c w h ww wh c' r col gx gy : Nat}
    (ht : t.WF) (hs : t.shape = [c, w, h]) (hww : ww ∣ w) (hwh : wh ∣ h)
    (hc' : c' < c) (hr : r < ww) (hcol : col < wh)
    (hgx : gx < w / ww) (hgy : gy < h / wh) :
    ∃ out, depth_increasing_pooling t (ww, wh) none = Except.ok out ∧
      out.el [c' * ww * wh + r * wh + col, gx, gy] =
        t.el [c', gx * ww + r, gy * wh + col] := by
  refine ⟨_, dip_ok ht hs hww hwh, ?_⟩
  have hv5 : validIdx (applyPerm [0, 2, 4, 1, 3]
      ((⟨[c, w / ww, ww, h / wh, wh], t.data⟩ : NpTensor α).shape))
      [c', r, col, gx, gy] = true := by
    show validIdx [c, ww, wh, w / ww, h / wh] [c', r, col, gx, gy] = true
    simp [validIdx, hc', hr, hcol, hgx, hgy]
  show (npTranspose (⟨[c, w / ww, ww, h / wh, wh], t.data⟩ : NpTensor α)
      [0, 2, 4, 1, 3]).data.getD
        (linIdx [c * ww * wh, w / ww, h / wh]
          [c' * ww * wh + r * wh + col, gx, gy]) default
      = t.el [c', gx * ww + r, gy * wh + col]
  have hidx : linIdx [c * ww * wh, w / ww, h / wh]
        [c' * ww * wh + r * wh + col, gx, gy]
      = linIdx (applyPerm [0, 2, 4, 1, 3] [c, w / ww, ww, h / wh, wh])
          [c', r, col, gx, gy] := by
    show _ = linIdx [c, ww, wh, w / ww, h / wh] [c', r, col, gx, gy]
    simp only [linIdx, List.prod_cons, List.prod_nil]
    ring
  rw [hidx]
  show (npTranspose (⟨[c, w / ww, ww, h / wh, wh], t.data⟩ : NpTensor α)
      [0, 2, 4, 1, 3]).el [c', r, col, gx, gy]
      = t.el [c', gx * ww + r, gy * wh + col]
  rw [el_npTranspose hv5]
  have hinv : invApply [0, 2, 4, 1, 3] [c', r, col, gx, gy]
      = [c', gx, r, gy, col] := rfl
  rw [hinv]
  show t.data.getD (linIdx [c, w / ww, ww, h / wh, wh] [c', gx, r, gy, col]) default
      = t.data.getD (linIdx t.shape [c', gx * ww + r, gy * wh + col]) default
  congr 1
  rw [hs]
  simp only [linIdx, List.prod_cons, List.prod_nil]
  generalize hW : w / ww = W
  generalize hH : h / wh = H
  have hw : W * ww = w := by rw [← hW]; exact Nat.div_mul_cancel hww
  have hh2 : H * wh = h := by rw [← hH]; exact Nat.div_mul_cancel hwh
  rw [← hw, ← hh2]
  ring

/-- C1 witness: channel 1, window row 0, window column 1, grid cell (1,0)
of the reference test input. -/
theorem claim1_witness :
    ∃ out, depth_increasing_pooling testData (2, 2) none = Except.ok out ∧
      out.el [1 * 2 * 2 + 0 * 2 + 1, 1, 0] =
        testData.el [1, 1 * 2 + 0, 0 * 2 + 1] :=
  claim1_index_mapping (by decide) rfl (by decide) (by decide) (by decide)
    (by decide) (by decide) (by decide) (by decide)

/-- C2.  Shape law: on every valid input the output has shape
`(channels·ww·wh, width/ww, height/wh)` and the same total element count
as the input. -/
theorem claim2_shape_law {α : Type} [Inhabited α] {t : NpTensor α}
    {c w h ww wh : Nat}
    (ht : t.WF) (hs : t.shape = [c, w, h]) (hww0 : 0 < ww) (hwh0 : 0 < wh)
    (hww : ww ∣ w) (hwh : wh ∣ h) :
    ∃ out, depth_increasing_pooling t (ww, wh) none = Except.ok out ∧
      out.shape = [c * ww * wh, w / ww, h / wh] ∧
      out.data.length = t.data.length := by
  refine ⟨_, dip_ok ht hs hww hwh, rfl, ?_⟩
  show (npTranspose (⟨[c, w / ww, ww, h / wh, wh], t.data⟩ : NpTensor α)
      [0, 2, 4, 1, 3]).data.length = t.data.length
  have h1 := WF_npTranspose (⟨[c, w / ww, ww, h / wh, wh], t.data⟩ : NpTensor α)
    [0, 2, 4, 1, 3]
  unfold NpTensor.WF at h1
  rw [h1, ht, hs]
  show ([c, ww, wh, w / ww, h / wh] : List Nat).prod
      = ([c, w, h] : List Nat).prod
  have hw : w / ww * ww = w := Nat.div_mul_cancel hww
  have hh2 : h / wh * wh = h := Nat.div_mul_cancel hwh
  simp only [List.prod_cons, List.prod_nil]
  calc c * (ww * (wh * (w / ww * (h / wh * 1))))
      = c * ((w / ww * ww) * (h / wh * wh)) := by ring
    _ = c * (w * (h * 1)) := by rw [hw, hh2]; ring

/-- C2 witness: the non-square window `(1, 2)` on a `(3, 4, 4)` tensor
yields shape `(3·2, 4, 2)`. -/
theorem claim2_witness :
    ∃ out, depth_increasing_pooling
        (⟨[3, 4, 4], List.replicate 48 0⟩ : NpTensor Nat) (1, 2) none
        = Except.ok out ∧
      out.shape = [3 * 1 * 2, 4 / 1, 4 / 2] ∧
      out.data.length =
        (⟨[3, 4, 4], List.replicate 48 0⟩ : NpTensor Nat).data.length :=
  claim2_shape_law (by decide) rfl (by decide) (by decide) (by decide)
    (by decide)

/-- C3.  Refinement: the selection-swap algorithm `transposeAlotNp`, which
uses only pairwise axis swaps, computes exactly the direct general
transpose `npTranspose` for every well-formed tensor and valid
permutation of its axes. -/
theorem claim3_swap_transpose_equiv {α : Type} [Inhabited α]
    (t : NpTensor α) (perm : List Nat) (ht : t.WF)
    (hlen : t.shape.length = perm.length) (hp : ValidPerm perm) :
    transposeAlotNp t perm = npTranspose t perm :=
  transposeAlot_eq ht hlen hp

/-- C3 witness: a 2×3 tensor with the swap permutation. -/
theorem claim3_witness :
    transposeAlotNp (⟨[2, 3], [10, 11, 12, 20, 21, 22]⟩ : NpTensor Nat) [1, 0]
      = npTranspose (⟨[2, 3], [10, 11, 12, 20, 21, 22]⟩ : NpTensor Nat) [1, 0] :=
  claim3_swap_transpose_equiv _ _ (by decide) (by decide) (by decide)

/-- C4 counterexample: on the non-divisible input of shape `(1, 3, 2)`
with window `(2, 2)` the function does fail — the intermediate reshape
reports an element-count mismatch (numpy raises ValueError on
`volume.shape = shape_tmp`) — contradicting the claim that a
truncated/incorrect result is produced rather than a failure. -/
theorem claim4_counterexample :
    depth_increasing_pooling (⟨[1, 3, 2], [0, 1, 2, 3, 4, 5]⟩ : NpTensor Nat)
        (2, 2) none = Except.error DipError.sizeMismatch ∧
      dip_np (⟨[1, 3, 2], [0, 1, 2, 3, 4, 5]⟩ : NpTensor Nat) (2, 2) = none :=
  ⟨rfl, rfl⟩

/-- C4 amended.  `depth_increasing_pooling` itself performs the integer
divisions silently and never checks divisibility, but on a tensor with
positive dimensions whose width is not divisible by `ww` or whose height
is not divisible by `wh`, the intermediate reshape then fails, because
`channels·(width/ww)·ww·(height/wh)·wh` is strictly smaller than the
input element count: the call errors out instead of returning a truncated
result. -/
theorem claim4_nondivisible_amended {α : Type} [Inhabited α]
    {t : NpTensor α} {c w h ww wh : Nat} (hs : t.shape = [c, w, h])
    (hc : 0 < c) (hw0 : 0 < w) (hh0 : 0 < h)
    (hnd : ¬ ww ∣ w ∨ ¬ wh ∣ h) :
    depth_increasing_pooling t (ww, wh) none
      = Except.error DipError.sizeMismatch := by
  rw [depth_increasing_pooling_three t ww wh c w h hs]
  have hA : w / ww * ww ≤ w := Nat.div_mul_le_self w ww
  have hB : h / wh * wh ≤ h := Nat.div_mul_le_self h wh
  have hlt : (w / ww * ww) * (h / wh * wh) < w * h := by
    rcases hnd with hnw | hnh
    · have hAlt : w / ww * ww < w := by
        rcases Nat.lt_or_ge (w / ww * ww) w with hl | hg
        · exact hl
        · have heq : w / ww * ww = w := le_antisymm hA hg
          exact absurd ⟨w / ww, heq.symm.trans (by ring)⟩ hnw
      calc (w / ww * ww) * (h / wh * wh)
          ≤ (w / ww * ww) * h := Nat.mul_le_mul_left _ hB
        _ < w * h := (Nat.mul_lt_mul_right hh0).2 hAlt
    · have hBlt : h / wh * wh < h := by
        rcases Nat.lt_or_ge (h / wh * wh) h with hl | hg
        · exact hl
        · have heq : h / wh * wh = h := le_antisymm hB hg
          exact absurd ⟨h / wh, heq.symm.trans (by ring)⟩ hnh
      calc (w / ww * ww) * (h / wh * wh)
          ≤ w * (h / wh * wh) := (Nat.mul_le_mul_right _ hA)
        _ < w * h := (Nat.mul_lt_mul_left hw0).2 hBlt
  have hne : ([c, w / ww, ww, h / wh, wh] : List Nat).prod ≠ t.shape.prod := by
    rw [hs]
    simp only [List.prod_cons, List.prod_nil]
    have e1 : c * (w / ww * (ww * (h / wh * (wh * 1))))
        = c * ((w / ww * ww) * (h / wh * wh)) := by ring
    have e2 : c * (w * (h * 1)) = c * (w * h) := by ring
    rw [e1, e2]
    intro hcontra
    exact absurd (Nat.eq_of_mul_eq_mul_left hc hcontra) (Nat.ne_of_lt hlt)
  have hres : reshapeNp t [c, w / ww, ww, h / wh, wh] = none := by
    unfold reshapeNp
    rw [if_neg hne]
  rw [hres]

/-- C4 witness of the amended statement: shape `(2, 4, 5)` with window
`(2, 2)` — the height 5 is not divisible by 2. -/
theorem claim4_witness :
    depth_increasing_pooling
        (⟨[2, 4, 5], List.replicate 40 0⟩ : NpTensor Nat) (2, 2) none
      = Except.error DipError.sizeMismatch :=
  claim4_nondivisible_amended rfl (by decide) (by decide) (by decide)
    (Or.inr (by decide))

/-- C5.  `depth_increasing_pooling` fails with the ShapeError exactly when
the effective input shape — `input_shape` when given, else the tensor's
own shape — does not have exactly 3 entries; by definition this branch is
taken before either reshape is attempted, so no other computation happens
on that path. -/
theorem claim5_shape_error_iff {α : Type} [Inhabited α] (t : NpTensor α)
    (pw : Nat × Nat) (ish : Option (List Nat)) :
    depth_increasing_pooling t pw ish = Except.error DipError.shapeError ↔
      (ish.getD t.shape).length ≠ 3 := by
  by_cases hlen : (ish.getD t.shape).length = 3
  · obtain ⟨x, y, z, hl⟩ : ∃ x y z, ish.getD t.shape = [x, y, z] := by
      cases hli : ish.getD t.shape with
      | nil => rw [hli] at hlen; simp at hlen
      | cons x l1 =>
        cases l1 with
        | nil => rw [hli] at hlen; simp at hlen
        | cons y l2 =>
          cases l2 with
          | nil => rw [hli] at hlen; simp at hlen
          | cons z l3 =>
            cases l3 with
            | nil => exact ⟨x, y, z, rfl⟩
            | cons u l4 => rw [hli] at hlen; simp at hlen
    rw [depth_increasing_pooling_eq_of_len3 t pw ish x y z hl]
    constructor
    · intro hcon
      exfalso
      split at hcon
      · exact DipError.noConfusion (Except.error.inj hcon)
      · split at hcon
        · exact DipError.noConfusion (Except.error.inj hcon)
        · exact Except.noConfusion hcon
    · intro hne
      exact absurd hlen hne
  · unfold depth_increasing_pooling
    rw [if_neg hlen]
    simp [hlen]

/-- C6.  Round trip: permuting the axes of a tensor of rank at most 5 by a
valid permutation and then by its inverse reconstructs the original
tensor exactly. -/
theorem claim6_roundtrip {α : Type} [Inhabited α] (t : NpTensor α)
    (perm : List Nat) (ht : t.WF) (hlen : t.shape.length = perm.length)
    (hrank : t.shape.length ≤ 5) (hp : ValidPerm perm) :
    transposeAlotNp (transposeAlotNp t perm) (invPermList perm) = t :=
  transposeAlot_roundtrip ht hlen hp

/-- C6 witness: a 2×3 tensor and the swap permutation. -/
theorem claim6_witness :
    transposeAlotNp
        (transposeAlotNp (⟨[2, 3], [0, 1, 2, 3, 4, 5]⟩ : NpTensor Nat) [1, 0])
        (invPermList [1, 0])
      = (⟨[2, 3], [0, 1, 2, 3, 4, 5]⟩ : NpTensor Nat) :=
  claim6_roundtrip _ _ (by decide) (by decide) (by decide) (by decide)

/-- C7.  Concrete reference test: on the (2,4,4) test input with window
`(2, 2)` both `depth_increasing_pooling` and the numpy reference `dip_np`
return exactly the expected (8,2,2) tensor. -/
theorem claim7_concrete_test :
    depth_increasing_pooling testData (2, 2) none = Except.ok expectedData ∧
      dip_np testData (2, 2) = some expectedData :=
  ⟨rfl, rfl⟩

/-- C8.  The identity permutation `[0, …, n-1]` makes `transposeAlotNp`
return the input tensor unchanged: no iteration of the loop swaps
anything.  This holds for the tensor's own rank `n = t.shape.length` (the
claim) and indeed for any `n`. -/
theorem claim8_identity_perm {α : Type} [Inhabited α] (t : NpTensor α) :
    transposeAlotNp t (List.range t.shape.length) = t :=
  transposeAlot_range t t.shape.length

/-- C9.  The loop of `transposeAlotNp` performs at most `n - 1` pairwise
axis swaps — the counter in the loop state records one `np.swapaxes` call
per swapping iteration — and, the embedding being a pure function, the
result of two runs on the same tensor and permutation is identical. -/
theorem claim9_swap_count_deterministic {α : Type} [Inhabited α]
    (t : NpTensor α) (perm : List Nat) (hp : ValidPerm perm) :
    (dipLoop t perm).2 ≤ perm.length - 1 ∧
      transposeAlotNp t perm = transposeAlotNp t perm := by
  refine ⟨?_, rfl⟩
  unfold dipLoop
  have h1 := @foldl_dipStep_count α _ perm (List.range (perm.length - 1))
    (dipInit t perm)
  have h2 : (dipInit (α := α) t perm).2 = 0 := rfl
  rw [h2, Nat.zero_add, List.length_range] at h1
  exact h1

/-- C9 witness: a 2×2 tensor with the swap permutation, at most one swap. -/
theorem claim9_witness :
    (dipLoop (⟨[2, 2], [1, 2, 3, 4]⟩ : NpTensor Nat) [1, 0]).2
        ≤ ([1, 0] : List Nat).length - 1 ∧
      transposeAlotNp (⟨[2, 2], [1, 2, 3, 4]⟩ : NpTensor Nat) [1, 0]
        = transposeAlotNp (⟨[2, 2], [1, 2, 3, 4]⟩ : NpTensor Nat) [1, 0] :=
  claim9_swap_count_deterministic _ _ (by decide)

/-- C10.  Loop invariant of the selection-swap algorithm: for a valid
permutation of length `n`, after iterations `0, …, i` of the loop the
bookkeeping list is still a rearrangement of `0, …, n-1` and agrees with
`perm` at positions `0, …, i`; after the whole loop over positions
`0, …, n-2` it equals `perm` everywhere, the last position included. -/
theorem claim10_loop_invariant {α : Type} [Inhabited α] (t : NpTensor α)
    (perm : List Nat) (hp : ValidPerm perm) :
    (∀ i, i < perm.length - 1 →
      ValidPerm ((List.range (i + 1)).foldl (dipStep perm)
        (dipInit t perm)).1.2 ∧
      ∀ k, k ≤ i →
        (((List.range (i + 1)).foldl (dipStep perm)
          (dipInit t perm)).1.2).getD k 0 = perm.getD k 0) ∧
      (dipLoop t perm).1.2 = perm := by
  constructor
  · intro i hi
    have hinit : CurInv perm 0 (dipInit t perm).1.2 := by
      refine ⟨by simp [dipInit], ?_, fun k hk => by omega⟩
      show ValidPerm (List.range perm.length)
      exact validPerm_range perm.length
    have h2 := dipFold_curInv hp (i + 1) 0 (dipInit t perm) (by omega) hinit
    rw [Nat.zero_add] at h2
    rw [List.range_eq_range']
    obtain ⟨hlen, hvp, hpre⟩ := h2
    exact ⟨hvp, fun k hk => hpre k (by omega)⟩
  · exact dipLoop_cur_eq t hp

/-- C10 witness: a 2×2 tensor with the swap permutation. -/
theorem claim10_witness :
    (∀ i, i < ([1, 0] : List Nat).length - 1 →
      ValidPerm ((List.range (i + 1)).foldl (dipStep [1, 0])
        (dipInit (⟨[2, 2], [1, 2, 3, 4]⟩ : NpTensor Nat) [1, 0])).1.2 ∧
      ∀ k, k ≤ i →
        (((List.range (i + 1)).foldl (dipStep [1, 0])
          (dipInit (⟨[2, 2], [1, 2, 3, 4]⟩ : NpTensor Nat) [1, 0])).1.2).getD k 0
          = ([1, 0] : List Nat).getD k 0) ∧
      (dipLoop (⟨[2, 2], [1, 2, 3, 4]⟩ : NpTensor Nat) [1, 0]).1.2 = [1, 0] :=
  claim10_loop_invariant _ _ (by decide)

end CNTKDip
